import Mathlib

/-!
Verification development for the pingback terminal latency visualizer.

The Go source is shallowly embedded as follows:
* a latency sample (`float64` that is either a finite latency in milliseconds
  or the `NaN` drop sentinel) is `Option ℚ`: `some v` is a valid latency,
  `none` is a drop (`NaN`);
* Go's exact `float64` comparisons (`<`, `>`, `==`), which on the finite
  values used here agree with the rational order, are the order on `ℚ`;
* Go's `math.Log2`-based integer quantities are embedded exactly:
  `int(math.Log2(float64 n))` is `intLog2 n` (truncation of the base-2
  logarithm, equal to `Nat.log2 n`) and
  `int(math.Round(math.Log2(float64 n)))` is `roundLog2 n`
  (nearest integer to the base-2 logarithm); for the integer magnitudes the
  program can reach, the `float64` logarithm is far more accurate than the
  distance from `log2 n` to the nearest truncation/rounding boundary, so the
  exact-real reading is the faithful one;
* fallible Go code (out-of-range slice indexing, integer division by zero,
  and conversion of `NaN` to `int`, whose result Go leaves
  implementation-defined) is modelled with `Option`: `none` means the Go
  program has no defined result there (on amd64 it panics with an
  out-of-range index).
-/

/-- A raw latency sample: `some v` is a valid latency in milliseconds,
`none` is the drop sentinel (`math.NaN()` in the Go source). -/
abbrev Sample := Option ℚ

/-- The comparator of Go's `sort.Float64s` (`Float64Slice.Less`):
`x < y || (isNaN(x) && !isNaN(y))` — `NaN` sorts before every number. -/
def goLess : Sample → Sample → Bool
  | none, some _ => true
  | some x, some y => decide (x < y)
  | _, none => false

/-- `goLess` as a decidable relation, for `List.insertionSort`. -/
def goLessP (a b : Sample) : Prop := goLess a b = true

instance : DecidableRel goLessP := fun a b =>
  inferInstanceAs (Decidable (goLess a b = true))

/-- `sort.Float64s(innerData)` from `aggregate`: sorts ascending with all
`NaN`s (drops) first.  Go's sort is unstable, but for this comparator the
output is value-determined, so any correct sort embeds it; we use
insertion sort. -/
def sortFloat64s (l : List Sample) : List Sample := l.insertionSort goLessP

/-- Ascending sort of the valid latencies (the order `sort.Float64s` gives
the non-`NaN` part of the array). -/
def sortValid (l : List ℚ) : List ℚ := l.insertionSort (· < ·)

/-- The `lost` counter of `aggregate`: the number of `NaN` (drop) entries. -/
def countLost (l : List Sample) : ℕ := l.countP (fun s => s.isNone)

/-- Lines 388-394 of `aggregate`: sort, count the `NaN`s (which the sort has
placed first), then `innerData = append(innerData[lost:], innerData[:lost]...)`,
i.e. rotate the `lost` leading entries to the back. -/
def reorderData (data : List Sample) : List Sample :=
  let sorted := sortFloat64s data
  let lost := countLost sorted
  sorted.drop lost ++ sorted.take lost

/-- Fuel-driven helper for `intLog2`: structurally recursive so that the
kernel can evaluate it on closed inputs. -/
def log2Aux : ℕ → ℕ → ℕ
  | 0, _ => 0
  | fuel + 1, n => if 2 ≤ n then log2Aux fuel (n / 2) + 1 else 0

/-- `int(math.Log2(float64 n))`: the base-2 logarithm truncated to an
integer (equal to `Nat.log2 n`, proved below). -/
def intLog2 (n : ℕ) : ℕ := log2Aux n n

/-- The order-statistic index of `aggregate`, computed exactly:

`index := int(math.Round(float64(i) / ((samples - 1) / (float64(n) - 1))))`

with `samples = math.Log2(float64 n)`.  In exact real arithmetic this is
`round (i * (n-1) / (log2 n - 1))`, rounding halves away from zero.  For a
nonnegative real `x`, `round x` equals the number of integers `m ≥ 1` with
`x ≥ m - 1/2`; here, for `n ≥ 3` (so `log2 n - 1 > 0`),

  `i*(n-1)/(log2 n - 1) ≥ m - 1/2`
  `↔ 2*i*(n-1) ≥ (2*m-1)*(log2 n - 1)`
  `↔ log2 n ≤ (2*i*(n-1) + (2*m-1)) / (2*m-1)`
  `↔ n ^ (2*m-1) ≤ 2 ^ (2*i*(n-1) + 2*m-1)`,

a decidable comparison of naturals.  All candidate `m` lie in `1..n`
because the index never exceeds `n - 1`, so counting over `List.range n`
(with `m = m' + 1`) computes the round exactly. -/
def aggIndex (n i : ℕ) : ℕ :=
  (List.range n).countP
    (fun m => decide (n ^ (2 * m + 1) ≤ 2 ^ (2 * i * (n - 1) + 2 * m + 1)))

/-- The index computation including its undefined case: when `n = 2`,
`samples - 1 = 0`, the Go code divides `0.0/0.0 = NaN` and converts `NaN`
to `int`, whose value Go leaves implementation-defined (on amd64 the
resulting index is the minimum `int` and the array access panics).  We
model that as `none`. -/
def aggIndexGo (n i : ℕ) : Option ℕ :=
  if n = 2 then none else some (aggIndex n i)

/-- The loop of `aggregate` (lines 397-400): for each `i`, compute the
index and read `innerData[index]`, collecting the values.  A `none`
anywhere (undefined index, or an out-of-range read, which panics in Go)
makes the whole result undefined. -/
def collectStats (inner : List Sample) (n : ℕ) : List ℕ → Option (List Sample)
  | [] => some []
  | i :: is =>
    match aggIndexGo n i with
    | none => none
    | some idx =>
      match inner[idx]? with
      | none => none
      | some v =>
        match collectStats inner n is with
        | none => none
        | some vs => some (v :: vs)

/-- `aggregate` (lines 384-403): copy and sort the chunk (`NaN`s first),
count the `NaN`s as `lost`, rotate them to the back, emit
`int(Log2 n)` order statistics at the rounded evenly-spaced indices, and
append `lost` as the final element. -/
def aggregate (data : List Sample) : Option (List Sample) :=
  let lost := countLost (sortFloat64s data)
  let inner := reorderData data
  match collectStats inner inner.length (List.range (intLog2 inner.length)) with
  | none => none
  | some stats => some (stats ++ [some ((lost : ℚ))])

/-- `int(math.Round(math.Log2(float64 n)))` from `initialModel`, computed
exactly: `round (log2 n) = ⌊log2 n + 1/2⌋ = ⌊log2 (n^2) / 2 + 1/2⌋
= (⌊log2 (n^2)⌋ + 1) / 2` (no ties occur: `log2 n` is a half-integer only
if `n^2` is an odd power of two, impossible for `n : ℕ`). -/
def roundLog2 (n : ℕ) : ℕ := (intLog2 (n * n) + 1) / 2

/-- `streamCount` from `initialModel` (line 71): the number of rows
allocated for a level of chunk size `chunkSize` is
`1 + int(math.Round(math.Log2(float64 chunkSize)))`. -/
def streamCount (chunkSize : ℕ) : ℕ := 1 + roundLog2 chunkSize

/-- `math.MaxFloat64 = 2^1024 - 2^971`, the initial `minLatency` sentinel,
as an exact rational (computed in `ℕ` so that closed instances reduce). -/
def maxFloat64 : ℚ := ((2 ^ 1024 - 2 ^ 971 : ℕ) : ℚ)

/-- The mutable fields of the Go `model` (part_001) that the aggregation
pipeline touches.  The fields that only concern the external UI (address,
interval, error, rendered strings, `initialized`) are omitted. -/
structure PingModel where
  counter : ℕ
  latencyData : List Sample
  aggregateCounts : List ℕ
  aggregateData : List (List (List Sample))
  windowWidth : ℕ
  minLatency : ℚ
  maxLatency : ℚ
  gradientUpdate : Bool
  deriving DecidableEq

/-- `initialModel` (lines 63-90): `aggregateCounts[i] = groupSize^(i+1)`,
and level `i` gets `1 + round(log2 aggregateCounts[i])` empty rows.
(The Go code requires `aggregates ≥ 1`; the map form below agrees with it
on every such configuration.) -/
def initialModel (groupSize aggregates : ℕ) : PingModel :=
  let counts := (List.range aggregates).map (fun i => groupSize ^ (i + 1))
  { counter := 0
    latencyData := []
    aggregateCounts := counts
    aggregateData := counts.map (fun c => List.replicate (streamCount c) [])
    windowWidth := 80
    minLatency := maxFloat64
    maxLatency := 1 / 1000
    gradientUpdate := true }

/-- The inner row-append loop of `processLatency` (lines 164-166):
`aggregateData[i][j] = append(aggregateData[i][j], aggregate[j])` for each
row `j`.  Reading `aggregate[j]` past the end of the summary panics in Go,
modelled by `none`; summary entries beyond the row count are ignored. -/
def appendEach : List (List Sample) → List Sample → Option (List (List Sample))
  | [], _ => some []
  | r :: rs, v :: vs =>
    match appendEach rs vs with
    | none => none
    | some rest => some ((r ++ [v]) :: rest)
  | _ :: _, [] => none

/-- One level of the aggregation loop (lines 162-167): if the counter is
divisible by the level's chunk size and the window is non-empty, summarize
the last `cnt` window entries and append the summary element-wise to the
level's rows.  `cnt = 0` (Go: modulo by zero) and a window shorter than
`cnt` (Go: negative slice bound) panic, modelled by `none`. -/
def stepLevel (c : ℕ) (w : List Sample) (cnt : ℕ) (rows : List (List Sample)) :
    Option (List (List Sample)) :=
  if cnt = 0 then none
  else if c % cnt = 0 ∧ 0 < w.length then
    if cnt ≤ w.length then
      match aggregate (w.drop (w.length - cnt)) with
      | none => none
      | some agg => appendEach rows agg
    else none
  else some rows

/-- The `for i := range m.aggregateCounts` loop of `processLatency`:
process the levels in order, each against the same counter and window. -/
def processLevels (c : ℕ) (w : List Sample) :
    List ℕ → List (List (List Sample)) → Option (List (List (List Sample)))
  | [], rest => some rest
  | _ :: _, [] => none
  | cnt :: cnts, rows :: rest =>
    match stepLevel c w cnt rows with
    | none => none
    | some rows' =>
      match processLevels c w cnts rest with
      | none => none
      | some rest' => some (rows' :: rest')

/-- `processLatency` (lines 143-170): update the latency bounds (valid
samples only), append the sample to the window, trim the window to
`windowWidth*65536` by dropping the oldest element, bump the counter, and
run the aggregation levels. -/
def processLatency (m : PingModel) (latency : Sample) : Option PingModel :=
  let minLatency' :=
    match latency with
    | some v => if v < m.minLatency then v else m.minLatency
    | none => m.minLatency
  let maxLatency' :=
    match latency with
    | some v => if v > m.maxLatency then v else m.maxLatency
    | none => m.maxLatency
  let gradientUpdate' :=
    match latency with
    | some v => if v < m.minLatency ∨ v > m.maxLatency then true else m.gradientUpdate
    | none => m.gradientUpdate
  let window := m.latencyData ++ [latency]
  let window' := if m.windowWidth * 65536 < window.length then window.drop 1 else window
  match processLevels (m.counter + 1) window' m.aggregateCounts m.aggregateData with
  | none => none
  | some aggregateData' =>
    some { m with
      counter := m.counter + 1
      latencyData := window'
      minLatency := minLatency'
      maxLatency := maxLatency'
      gradientUpdate := gradientUpdate'
      aggregateData := aggregateData' }

/-- Feed a sequence of samples through `processLatency`, one per tick. -/
def run (m : PingModel) : List Sample → Option PingModel
  | [] => some m
  | s :: rest =>
    match processLatency m s with
    | none => none
    | some m' => run m' rest

/-- An RGB color with integer channels, as the Go code manipulates them
(`lipgloss.Color` hex strings parsed to per-channel ints in `0..255`). -/
abbrev Color := ℤ × ℤ × ℤ

/-- Go's `int(x)` conversion of a `float64`: truncation toward zero. -/
def ratTrunc (q : ℚ) : ℤ := Int.tdiv q.num (q.den : ℤ)

/-- `lerp` (lines 271-273): `a + t*(b-a)`. -/
def lerp (a b t : ℚ) : ℚ := a + t * (b - a)

/-- `lerpColor` (lines 276-285): interpolate each channel independently and
convert with `int(...)`, i.e. truncation, not rounding.  (`colorA.RGBA()`
yields the 16-bit channel `0xRR * 0x101`, and dividing by 256 recovers the
8-bit channel `0xRR` exactly, so the channels enter the interpolation as
their hex values.) -/
def lerpColor (colorA colorB : Color) (t : ℚ) : Color :=
  (ratTrunc (lerp colorA.1 colorB.1 t),
   ratTrunc (lerp colorA.2.1 colorB.2.1 t),
   ratTrunc (lerp colorA.2.2 colorB.2.2 t))

/-- `lerpColor` as the spec's words describe it: each channel
`lower + t*(upper-lower)` **rounded to the nearest integer** channel value.
Modelled from the spec for comparison with the source's `lerpColor`. -/
def lerpColorSpec (colorA colorB : Color) (t : ℚ) : Color :=
  (round (lerp colorA.1 colorB.1 t),
   round (lerp colorA.2.1 colorB.2.1 t),
   round (lerp colorA.2.2 colorB.2.2 t))

/-- `getGradientColor` (lines 288-299): clamp to the first/last control
color, otherwise scale to `[0, stops-1]`, split into integer index and
fractional `t`, and interpolate between the two adjacent control colors. -/
def getGradientColor (colors : List Color) (rr : ℚ) : Option Color :=
  if rr ≤ 0 then colors.head?
  else if 1 ≤ rr then colors.getLast?
  else
    let scaled := rr * ((colors.length : ℚ) - 1)
    let index := (ratTrunc scaled).toNat
    let t := scaled - ((ratTrunc scaled : ℤ) : ℚ)
    match colors[index]?, colors[index + 1]? with
    | some c1, some c2 => some (lerpColor c1 c2 t)
    | _, _ => none

/-- `getGradientColor` with the spec's rounded interpolation, for the
refinement comparison. -/
def getGradientColorSpec (colors : List Color) (rr : ℚ) : Option Color :=
  if rr ≤ 0 then colors.head?
  else if 1 ≤ rr then colors.getLast?
  else
    let scaled := rr * ((colors.length : ℚ) - 1)
    let index := (ratTrunc scaled).toNat
    let t := scaled - ((ratTrunc scaled : ℤ) : ℚ)
    match colors[index]?, colors[index + 1]? with
    | some c1, some c2 => some (lerpColorSpec c1 c2 t)
    | _, _ => none

/-- The gradient palette of `latencyToColor` (lines 309-319), hex codes as
integer channels. -/
def gradientColors : List Color :=
  [(0x46, 0x6b, 0xe3), (0x29, 0xbb, 0xec), (0x31, 0xf1, 0x99),
   (0xa3, 0xfd, 0x3d), (0xed, 0xd0, 0x3a), (0xfb, 0x80, 0x22),
   (0xd2, 0x31, 0x05), (0x7a, 0x04, 0x03)]

/-- The `#00FF00` default of `latencyToColor`. -/
def defaultGreen : Color := (0x00, 0xFF, 0x00)

/-- `latencyToColor` (lines 302-326): the `minLatency == maxLatency` guard
returns green; otherwise the ratio is
`Log(latency/minLatency) / Log(maxLatency/minLatency)` followed by the
gradient lookup.  The real logarithm is not rational-computable, so it is
passed in as an abstract function `lg`; the claims proved about
`latencyToColor` do not depend on it. -/
def latencyToColor (lg : ℚ → ℚ) (minLatency maxLatency latency : ℚ) : Option Color :=
  if minLatency = maxLatency then some defaultGreen
  else getGradientColor gradientColors (lg (latency / minLatency) / lg (maxLatency / minLatency))

/-- The layout arithmetic of `renderLegend` (lines 345-367), over the list
of entry widths (`lengths[i] = 3 + len(label)` in the source): the widest
entry, the column count `max(1, windowWidth / widest)` (Go divides first
and then clamps; division by zero — possible only with no entries — panics,
modelled by `none`), and the row count `ceil(entries / cols)`. -/
def renderLegendLayout (lengths : List ℕ) (windowWidth : ℕ) : Option (ℕ × ℕ × ℕ) :=
  let widest := lengths.foldl max 0
  if widest = 0 then none
  else
    let cols := max (windowWidth / widest) 1
    let rows := (lengths.length + cols - 1) / cols
    some (widest, cols, rows)

/-- The column-major placement of `renderLegend` (lines 369-373): entry `i`
goes to column `i / rows`, row `i % rows`. -/
def legendPos (rows i : ℕ) : ℕ × ℕ := (i / rows, i % rows)

/-! ## Basic facts about the embedded definitions -/

theorem log2Aux_eq (fuel n : ℕ) (h : n ≤ fuel) : log2Aux fuel n = Nat.log2 n := by
  induction fuel generalizing n with
  | zero =>
    have hn : n = 0 := Nat.le_zero.mp h
    subst hn
    rw [Nat.log2]
    simp [log2Aux]
  | succ fuel ih =>
    rw [Nat.log2]
    by_cases h2 : 2 ≤ n
    · have hdiv : n / 2 ≤ fuel := by omega
      simp [log2Aux, h2, ih _ hdiv]
    · simp [log2Aux, h2]

theorem intLog2_eq (n : ℕ) : intLog2 n = Nat.log2 n := log2Aux_eq n n (le_refl n)

theorem length_sortFloat64s (l : List Sample) : (sortFloat64s l).length = l.length :=
  List.length_insertionSort goLessP l

theorem countLost_sortFloat64s (l : List Sample) :
    countLost (sortFloat64s l) = countLost l :=
  (List.perm_insertionSort goLessP l).countP_eq _

theorem countLost_le_length (l : List Sample) : countLost l ≤ l.length :=
  List.countP_le_length _

theorem length_reorderData (l : List Sample) : (reorderData l).length = l.length := by
  have h1 := length_sortFloat64s l
  have h2 : countLost (sortFloat64s l) ≤ (sortFloat64s l).length := countLost_le_length _
  simp only [reorderData, List.length_append, List.length_drop, List.length_take]
  omega

theorem two_pow_log2_le (n : ℕ) (hn : n ≠ 0) : 2 ^ Nat.log2 n ≤ n :=
  (Nat.le_log2 hn).mp (le_refl _)

/-- The order-statistic index stays inside the array: for `3 ≤ n` and
`i < int(log2 n)`, the rounded index is at most `n - 1`. -/
theorem aggIndex_lt (n i : ℕ) (hn : 3 ≤ n) (hi : i < Nat.log2 n) : aggIndex n i < n := by
  have hn0 : n ≠ 0 := by omega
  have hk2 : 2 ^ Nat.log2 n ≤ n := two_pow_log2_le n hn0
  have hk1 : 1 ≤ Nat.log2 n := by
    rw [Nat.le_log2 hn0]
    omega
  -- the counted predicate fails at m = n - 1, so the count is below n
  have hfalse :
      ¬ (n ^ (2 * (n - 1) + 1) ≤ 2 ^ (2 * i * (n - 1) + 2 * (n - 1) + 1)) := by
    push_neg
    rcases Nat.lt_or_ge (Nat.log2 n) 2 with hklt | hkge
    · -- log2 n = 1, hence i = 0
      have hi0 : i = 0 := by omega
      subst hi0
      have : 2 ^ (2 * (n - 1) + 1) < n ^ (2 * (n - 1) + 1) :=
        Nat.pow_lt_pow_left (by omega) (by omega)
      simpa using this
    · -- log2 n ≥ 2: the exponents alone separate the powers
      have hexp : 2 * i * (n - 1) + 2 * (n - 1) + 1 < Nat.log2 n * (2 * (n - 1) + 1) := by
        obtain ⟨a, ha⟩ : ∃ a, Nat.log2 n = a + 2 := ⟨Nat.log2 n - 2, by omega⟩
        obtain ⟨b, hb⟩ : ∃ b, n - 1 = b + 2 := ⟨n - 3, by omega⟩
        rw [ha, hb]
        have h1 : 2 * i * (b + 2) ≤ 2 * (a + 1) * (b + 2) :=
          Nat.mul_le_mul_right _ (by omega)
        nlinarith
      calc 2 ^ (2 * i * (n - 1) + 2 * (n - 1) + 1)
          < 2 ^ (Nat.log2 n * (2 * (n - 1) + 1)) := Nat.pow_lt_pow_right (by omega) hexp
        _ = (2 ^ Nat.log2 n) ^ (2 * (n - 1) + 1) := by rw [pow_mul]
        _ ≤ n ^ (2 * (n - 1) + 1) := Nat.pow_le_pow_left hk2 _
  have hle : aggIndex n i ≤ n := by
    simpa using List.countP_le_length
      (fun m => decide (n ^ (2 * m + 1) ≤ 2 ^ (2 * i * (n - 1) + 2 * m + 1)))
      (l := List.range n)
  rcases Nat.lt_or_ge (aggIndex n i) n with h | h
  · exact h
  · exfalso
    have heq : aggIndex n i = (List.range n).length := by
      simp [List.length_range]
      omega
    have hall := List.countP_eq_length.mp heq
    have hmem : n - 1 ∈ List.range n := List.mem_range.mpr (by omega)
    have := hall _ hmem
    simp only [decide_eq_true_eq] at this
    exact hfalse this

theorem collectStats_some (inner : List Sample) (n : ℕ) (idxs : List ℕ)
    (h : ∀ i ∈ idxs, ∃ idx, aggIndexGo n i = some idx ∧ idx < inner.length) :
    ∃ vs, collectStats inner n idxs = some vs ∧ vs.length = idxs.length := by
  induction idxs with
  | nil => exact ⟨[], rfl, rfl⟩
  | cons i is ih =>
    obtain ⟨idx, hidx, hlt⟩ := h i (by simp)
    obtain ⟨vs, hvs, hlen⟩ := ih (fun j hj => h j (by simp [hj]))
    refine ⟨inner[idx] :: vs, ?_, by simp [hlen]⟩
    simp [collectStats, hidx, List.getElem?_eq_getElem hlt, hvs]

/-- For a chunk of length at least 3, `aggregate` is defined and returns its
order statistics followed by the drop count. -/
theorem aggregate_some (data : List Sample) (h3 : 3 ≤ data.length) :
    ∃ stats, aggregate data = some (stats ++ [some ((countLost data : ℚ))]) ∧
      stats.length = intLog2 data.length := by
  have hlen : (reorderData data).length = data.length := length_reorderData data
  have h : ∀ i ∈ List.range (intLog2 (reorderData data).length),
      ∃ idx, aggIndexGo (reorderData data).length i = some idx ∧
        idx < (reorderData data).length := by
    intro i hi
    rw [List.mem_range, hlen, intLog2_eq] at hi
    have hne : data.length ≠ 2 := by omega
    refine ⟨aggIndex data.length i, ?_, ?_⟩
    · rw [hlen]
      simp [aggIndexGo, hne]
    · rw [hlen]
      exact aggIndex_lt data.length i h3 hi
  obtain ⟨vs, hvs, hlenvs⟩ := collectStats_some _ _ _ h
  refine ⟨vs, ?_, ?_⟩
  · simp only [aggregate]
    rw [countLost_sortFloat64s]
    simp [hvs]
  · rw [hlenvs, List.length_range, hlen]

/-- Claim C1 (amended): for every chunk of `n ≥ 3` samples, the summarizer
returns a sequence of fixed length `1 + int(log2 n)` (`int(log2 n)`
order-statistic slots followed by one drop-count slot).  The claim's
`1 + round(log2 n)` only matches when rounding and truncation agree, e.g.
for every power-of-two chunk size; `c1_counterexample` shows the failure at
`n = 3`, and a chunk of length exactly 2 produces no output at all. -/
theorem c1_summarizer_output_length (data : List Sample) (h3 : 3 ≤ data.length) :
    ∃ out, aggregate data = some out ∧ out.length = 1 + intLog2 data.length := by
  obtain ⟨stats, hs, hlen⟩ := aggregate_some data h3
  refine ⟨_, hs, ?_⟩
  simp [hlen]
  omega

/-- Claim C1 is false as stated: a chunk of size `n = 3` produces
`1 + int(log2 3) = 2` elements, not `1 + round(log2 3) = 3`. -/
theorem c1_counterexample :
    (aggregate [some 1, some 2, some 3]).map List.length = some 2 ∧
    (aggregate [some 1, some 2, some 3]).map List.length ≠ some (1 + roundLog2 3) := by
  refine ⟨?_, ?_⟩ <;> decide

/-- Witness for `c1_summarizer_output_length` at a concrete 4-sample chunk. -/
theorem c1_witness :
    3 ≤ ([some 1, some 2, some 3, some 4] : List Sample).length ∧
    ∃ out, aggregate ([some 1, some 2, some 3, some 4] : List Sample) = some out ∧
      out.length = 1 + intLog2 ([some 1, some 2, some 3, some 4] : List Sample).length :=
  ⟨by decide, c1_summarizer_output_length _ (by decide)⟩

/-- Claim C3 (amended): for every chunk whose length is not exactly 2 the
summarizer output is defined and its final element is the exact drop count;
a length-2 chunk has no defined output (its index computation divides
`0.0/0.0`).  In particular 32 drops give five `NaN` slots and a final 32
(see `c3_witness`). -/
theorem c3_final_element_drop_count (data : List Sample) (h2 : data.length ≠ 2) :
    ∃ out, aggregate data = some out ∧
      out.getLast? = some (some ((countLost data : ℚ))) := by
  rcases data with _ | ⟨a, _ | ⟨b, rest⟩⟩
  · exact ⟨_, rfl, rfl⟩
  · rcases a with _ | v
    · exact ⟨_, rfl, rfl⟩
    · exact ⟨_, rfl, rfl⟩
  · have h3 : 3 ≤ (a :: b :: rest).length := by
      simp only [List.length_cons] at h2 ⊢
      omega
    obtain ⟨stats, hs, _⟩ := aggregate_some _ h3
    exact ⟨_, hs, List.getLast?_concat _⟩

/-- Claim C3 is false as stated for length-2 chunks: an all-drop chunk of
two samples produces no output at all (Go: `int(NaN)` index, a panic on
amd64), rather than an output ending in the drop count 2. -/
theorem c3_counterexample : aggregate [none, none] = none := rfl

/-- Witness for `c3_final_element_drop_count`: the all-drop chunk of 32
samples yields `NaN` in every statistic slot and exactly 32 in the final
slot. -/
theorem c3_witness :
    (List.replicate 32 (none : Sample)).length ≠ 2 ∧
    (∃ out, aggregate (List.replicate 32 (none : Sample)) = some out ∧
      out.getLast? = some (some ((countLost (List.replicate 32 (none : Sample)) : ℚ)))) ∧
    aggregate (List.replicate 32 (none : Sample)) =
      some (List.replicate 5 none ++ [some 32]) :=
  ⟨by decide, c3_final_element_drop_count _ (by decide), by decide⟩

/-- Claim C5 (amended): whenever truncation and rounding of `log2 chunkSize`
agree — in particular for every power-of-two `groupSize`, hence for every
level of the default configuration — the `1 + round(log2 chunkSize)` rows
allocated per level do not exceed the summarizer's output length.
`c5_counterexample` refutes the unrestricted claim at chunk size 3. -/
theorem c5_rows_within_summary_length (data : List Sample) (h3 : 3 ≤ data.length)
    (hround : roundLog2 data.length = intLog2 data.length) :
    ∃ out, aggregate data = some out ∧ streamCount data.length ≤ out.length := by
  obtain ⟨stats, hs, hlen⟩ := aggregate_some data h3
  refine ⟨_, hs, ?_⟩
  simp [streamCount, hround, hlen]
  omega

/-- Claim C5 is false as stated: with `groupSize = 3` the level allocates
`1 + round(log2 3) = 3` rows but the summarizer returns only 2 elements,
so the row loop reads the summary out of bounds. -/
theorem c5_counterexample :
    streamCount 3 = 3 ∧
    (aggregate [some 1, some 2, some 3]).map List.length = some 2 ∧
    ¬ (streamCount 3 ≤ 2) := by
  refine ⟨?_, ?_, ?_⟩ <;> decide

/-- Witness for `c5_rows_within_summary_length` at a concrete 4-sample
chunk. -/
theorem c5_witness :
    3 ≤ ([some 5, some 6, some 7, some 8] : List Sample).length ∧
    roundLog2 ([some 5, some 6, some 7, some 8] : List Sample).length =
      intLog2 ([some 5, some 6, some 7, some 8] : List Sample).length ∧
    ∃ out, aggregate ([some 5, some 6, some 7, some 8] : List Sample) = some out ∧
      streamCount ([some 5, some 6, some 7, some 8] : List Sample).length ≤ out.length :=
  ⟨by decide, by decide, c5_rows_within_summary_length _ (by decide) (by decide)⟩

/-- Claim C6 is wrong about the code (the code lacks the guards the spec
demands): a length-1 chunk is summarized to just the drop count with no
representative value, and a length-2 chunk (the `samples == 1` case whose
index denominator is zero) has no defined output at all instead of the
middle index.  Only the `minLatency == maxLatency` color branch exists as
claimed, returning the default green. -/
theorem c6_degenerate_cases :
    aggregate [some 7] = some [some 0] ∧
    aggregate [some 1, some 2] = none ∧
    latencyToColor (fun q => q) 5 5 7 = some defaultGreen :=
  ⟨rfl, rfl, rfl⟩

theorem orderedInsert_none_replicate (k : ℕ) (s : List ℚ) :
    List.orderedInsert goLessP none (List.replicate k (none : Sample) ++ s.map some) =
      List.replicate (k + 1) (none : Sample) ++ s.map some := by
  induction k with
  | zero =>
    cases s with
    | nil => rfl
    | cons x xs => simp [List.orderedInsert, goLessP, goLess]
  | succ k ih =>
    rw [List.replicate_succ, List.cons_append, List.orderedInsert]
    rw [if_neg (by simp [goLessP, goLess]), ih]
    rw [List.replicate_succ]
    rfl

theorem orderedInsert_some_replicate (k : ℕ) (v : ℚ) (s : List ℚ) :
    List.orderedInsert goLessP (some v) (List.replicate k (none : Sample) ++ s.map some) =
      List.replicate k (none : Sample) ++ (List.orderedInsert (· < ·) v s).map some := by
  induction k with
  | zero =>
    simp only [List.replicate, List.nil_append]
    induction s with
    | nil => rfl
    | cons x xs ihs =>
      simp only [List.replicate, List.nil_append] at ihs
      by_cases hvx : v < x
      · simp [List.orderedInsert, goLessP, goLess, hvx]
      · simp only [List.map_cons, List.orderedInsert]
        rw [if_neg (by simp [goLessP, goLess, hvx]), if_neg (by simpa using hvx), ihs]
        rfl
  | succ k ih =>
    rw [List.replicate_succ, List.cons_append, List.orderedInsert]
    rw [if_neg (by simp [goLessP, goLess]), ih]
    rfl

/-- `sort.Float64s` in canonical form: all the `NaN`s first, then the valid
latencies in ascending order. -/
theorem sortFloat64s_eq (l : List Sample) :
    sortFloat64s l = List.replicate (countLost l) (none : Sample) ++
      (sortValid (l.filterMap id)).map some := by
  induction l with
  | nil => rfl
  | cons a l ih =>
    have hstep : sortFloat64s (a :: l) = List.orderedInsert goLessP a (sortFloat64s l) := rfl
    rcases a with _ | v
    · rw [hstep, ih, orderedInsert_none_replicate]
      simp [countLost, List.countP_cons]
    · rw [hstep, ih, orderedInsert_some_replicate]
      have hfm : (some v :: l).filterMap id = v :: l.filterMap id := by
        simp [List.filterMap_cons]
      have hsv : sortValid (v :: l.filterMap id) =
          List.orderedInsert (· < ·) v (sortValid (l.filterMap id)) := rfl
      rw [hfm, hsv]
      simp [countLost, List.countP_cons]

theorem drop_take_append {α : Type} (k t : List α) :
    (k ++ t).drop k.length ++ (k ++ t).take k.length = t ++ k := by
  rw [List.drop_left, List.take_left]

/-- Claim C2 (amended): after sorting, the drop samples occupy the **last**
`lost` slots of the reordered array (after the ascending valid values), so
when drops are present they surface in the highest-indexed order-statistic
outputs; `c2_counterexample` refutes the claimed lowest-index placement. -/
theorem c2_drop_placement (data : List Sample) :
    reorderData data =
      (sortValid (data.filterMap id)).map some ++
        List.replicate (countLost data) (none : Sample) := by
  have hthis := drop_take_append
    (List.replicate (countLost data) (none : Sample))
    ((sortValid (data.filterMap id)).map some)
  rw [List.length_replicate] at hthis
  simp only [reorderData]
  rw [countLost_sortFloat64s, sortFloat64s_eq data, hthis]

/-- Claim C2 is false as stated: for the chunk `[NaN, 1, 2, 3]` the
reordered array is `[1, 2, 3, NaN]`, not `[NaN, 1, 2, 3]`, and the single
drop lands in the highest-indexed statistic slot of the output
(`[1, NaN, 1]`), not the lowest. -/
theorem c2_counterexample :
    reorderData [none, some 1, some 2, some 3] ≠
      List.replicate (countLost [none, some 1, some 2, some 3]) (none : Sample) ++
        (sortValid (([none, some 1, some 2, some 3] : List Sample).filterMap id)).map some ∧
    reorderData [none, some 1, some 2, some 3] = [some 1, some 2, some 3, none] ∧
    aggregate [none, some 1, some 2, some 3] = some [some 1, none, some 1] := by
  refine ⟨?_, ?_, ?_⟩ <;> decide

theorem ratTrunc_eq_floor (q : ℚ) (hq : 0 ≤ q) : ratTrunc q = ⌊q⌋ := by
  rw [Rat.floor_def]
  exact Int.tdiv_eq_ediv (Rat.num_nonneg.mpr hq) (by positivity)

/-- Claim C7 (amended): for every ratio strictly between 0 and 1, gradient
lookup interpolates each channel independently as
`lower + t*(upper-lower)` with `t` the fractional part of the scaled
ratio, but the result is **truncated toward zero** (`int(...)` in Go, the
`ratTrunc` of `lerpColor`), not rounded to the nearest integer;
`c7_counterexample` refutes the claimed rounding. -/
theorem c7_gradient_lerp_truncates (rr : ℚ) (h0 : 0 < rr) (h1 : rr < 1) :
    ∃ c1 c2,
      gradientColors[(ratTrunc (rr * 7)).toNat]? = some c1 ∧
      gradientColors[(ratTrunc (rr * 7)).toNat + 1]? = some c2 ∧
      0 ≤ rr * 7 - ((ratTrunc (rr * 7) : ℤ) : ℚ) ∧
      rr * 7 - ((ratTrunc (rr * 7) : ℤ) : ℚ) < 1 ∧
      getGradientColor gradientColors rr =
        some (lerpColor c1 c2 (rr * 7 - ((ratTrunc (rr * 7) : ℤ) : ℚ))) := by
  have hsc0 : (0:ℚ) ≤ rr * 7 := by positivity
  have hsc7 : rr * 7 < 7 := by linarith
  have hfl : ratTrunc (rr * 7) = ⌊rr * 7⌋ := ratTrunc_eq_floor _ hsc0
  have hfl0 : 0 ≤ ⌊rr * 7⌋ := Int.floor_nonneg.mpr hsc0
  have hfl7 : ⌊rr * 7⌋ < 7 := by
    have hle := Int.floor_le (rr * 7)
    exact_mod_cast lt_of_le_of_lt hle hsc7
  have hidx7 : (ratTrunc (rr * 7)).toNat < 7 := by
    rw [hfl]
    exact (Int.toNat_lt hfl0).mpr (by exact_mod_cast hfl7)
  have hlt8 : (ratTrunc (rr * 7)).toNat < gradientColors.length := by
    have h8 : gradientColors.length = 8 := rfl
    omega
  have hlt8p : (ratTrunc (rr * 7)).toNat + 1 < gradientColors.length := by
    have h8 : gradientColors.length = 8 := rfl
    omega
  have htge0 : 0 ≤ rr * 7 - ((ratTrunc (rr * 7) : ℤ) : ℚ) := by
    rw [hfl]
    have := Int.floor_le (rr * 7)
    linarith
  have htlt1 : rr * 7 - ((ratTrunc (rr * 7) : ℤ) : ℚ) < 1 := by
    rw [hfl]
    have := Int.lt_floor_add_one (rr * 7)
    linarith
  refine ⟨gradientColors.get ⟨_, hlt8⟩, gradientColors.get ⟨_, hlt8p⟩, ?_, ?_,
    htge0, htlt1, ?_⟩
  · simp [List.getElem?_eq_getElem hlt8]
  · simp [List.getElem?_eq_getElem hlt8p]
  · have hn0 : ¬ rr ≤ 0 := not_le.mpr h0
    have hn1 : ¬ (1:ℚ) ≤ rr := not_le.mpr h1
    have hlen : ((gradientColors.length : ℚ) - 1) = 7 := by norm_num [gradientColors]
    simp only [getGradientColor, hn0, hn1, if_false, hlen]
    rw [List.getElem?_eq_getElem hlt8, List.getElem?_eq_getElem hlt8p]
    simp [List.get_eq_getElem]

unseal Rat.add Rat.mul Rat.inv Rat.sub in
/-- Claim C7 is false as stated: at ratio `1/14` the code truncates the
interpolated channels to `(55, 147, 231)` while rounding to the nearest
integer (as the spec claims) would give `(56, 147, 232)`. -/
theorem c7_counterexample :
    getGradientColor gradientColors (1/14) = some (55, 147, 231) ∧
    getGradientColorSpec gradientColors (1/14) = some (56, 147, 232) ∧
    getGradientColor gradientColors (1/14) ≠ getGradientColorSpec gradientColors (1/14) := by
  refine ⟨?_, ?_, ?_⟩ <;> decide

unseal Rat.add Rat.mul Rat.inv Rat.sub in
/-- Witness for `c7_gradient_lerp_truncates` at ratio `1/2`. -/
theorem c7_witness :
    (0:ℚ) < 1/2 ∧ ((1:ℚ)/2) < 1 ∧
    (∃ c1 c2,
      gradientColors[(ratTrunc (((1:ℚ)/2) * 7)).toNat]? = some c1 ∧
      gradientColors[(ratTrunc (((1:ℚ)/2) * 7)).toNat + 1]? = some c2 ∧
      0 ≤ ((1:ℚ)/2) * 7 - ((ratTrunc (((1:ℚ)/2) * 7) : ℤ) : ℚ) ∧
      ((1:ℚ)/2) * 7 - ((ratTrunc (((1:ℚ)/2) * 7) : ℤ) : ℚ) < 1 ∧
      getGradientColor gradientColors ((1:ℚ)/2) =
        some (lerpColor c1 c2 (((1:ℚ)/2) * 7 - ((ratTrunc (((1:ℚ)/2) * 7) : ℤ) : ℚ)))) :=
  ⟨by decide, by decide, c7_gradient_lerp_truncates ((1:ℚ)/2) (by decide) (by decide)⟩

/-- Inversion for a successful `processLatency` step: window, counter and
configuration fields. -/
theorem processLatency_window (m : PingModel) (s : Sample) (m' : PingModel)
    (h : processLatency m s = some m') :
    m'.latencyData = (if m.windowWidth * 65536 < (m.latencyData ++ [s]).length
        then (m.latencyData ++ [s]).drop 1 else m.latencyData ++ [s]) ∧
    m'.counter = m.counter + 1 ∧
    m'.windowWidth = m.windowWidth ∧
    m'.aggregateCounts = m.aggregateCounts := by
  simp only [processLatency] at h
  split at h
  · exact absurd h (by simp)
  · obtain rfl := Option.some.inj h
    exact ⟨rfl, rfl, rfl, rfl⟩

/-- Inversion for a successful `processLatency` step on a valid sample:
the observed bounds. -/
theorem processLatency_minmax_valid (m : PingModel) (v : ℚ) (m' : PingModel)
    (h : processLatency m (some v) = some m') :
    m'.minLatency = (if v < m.minLatency then v else m.minLatency) ∧
    m'.maxLatency = (if v > m.maxLatency then v else m.maxLatency) := by
  simp only [processLatency] at h
  split at h
  · exact absurd h (by simp)
  · obtain rfl := Option.some.inj h
    exact ⟨rfl, rfl⟩

/-- Inversion for a successful `processLatency` step on a drop sample:
the observed bounds do not move. -/
theorem processLatency_minmax_drop (m : PingModel) (m' : PingModel)
    (h : processLatency m none = some m') :
    m'.minLatency = m.minLatency ∧ m'.maxLatency = m.maxLatency := by
  simp only [processLatency] at h
  split at h
  · exact absurd h (by simp)
  · obtain rfl := Option.some.inj h
    exact ⟨rfl, rfl⟩

theorem processLatency_bounds_mono (m : PingModel) (s : Sample) (m' : PingModel)
    (h : processLatency m s = some m') :
    m'.minLatency ≤ m.minLatency ∧ m.maxLatency ≤ m'.maxLatency := by
  rcases s with _ | v
  · rcases processLatency_minmax_drop m m' h with ⟨h1, h2⟩
    rw [h1, h2]
    exact ⟨le_refl _, le_refl _⟩
  · rcases processLatency_minmax_valid m v m' h with ⟨h1, h2⟩
    rw [h1, h2]
    constructor
    · split_ifs with hv
      · exact le_of_lt hv
      · exact le_refl _
    · split_ifs with hv
      · exact le_of_lt hv
      · exact le_refl _

theorem processLatency_order_valid (m : PingModel) (v : ℚ) (m' : PingModel)
    (h : processLatency m (some v) = some m') :
    m'.minLatency ≤ m'.maxLatency := by
  rcases processLatency_minmax_valid m v m' h with ⟨h1, h2⟩
  rw [h1, h2]
  have hminle : (if v < m.minLatency then v else m.minLatency) ≤ v := by
    split_ifs with ha
    · exact le_refl v
    · exact not_lt.mp ha
  have hmaxge : v ≤ (if v > m.maxLatency then v else m.maxLatency) := by
    split_ifs with hb
    · exact le_refl v
    · exact not_lt.mp hb
  exact le_trans hminle hmaxge

theorem run_bounds_mono (samples : List Sample) :
    ∀ m m', run m samples = some m' →
      m'.minLatency ≤ m.minLatency ∧ m.maxLatency ≤ m'.maxLatency := by
  induction samples with
  | nil =>
    intro m m' h
    simp only [run] at h
    obtain rfl := Option.some.inj h
    exact ⟨le_refl _, le_refl _⟩
  | cons s rest ih =>
    intro m m' h
    simp only [run] at h
    split at h
    · exact absurd h (by simp)
    · rename_i m1 heq
      obtain ⟨h1, h2⟩ := processLatency_bounds_mono m s m1 heq
      obtain ⟨h3, h4⟩ := ih m1 m' h
      exact ⟨le_trans h3 h1, le_trans h2 h4⟩

theorem run_bounds_order (samples : List Sample) :
    ∀ m m', run m samples = some m' →
      (m.minLatency ≤ m.maxLatency ∨ ∃ s ∈ samples, s.isSome) →
      m'.minLatency ≤ m'.maxLatency := by
  induction samples with
  | nil =>
    intro m m' h hd
    simp only [run] at h
    obtain rfl := Option.some.inj h
    rcases hd with hmm | ⟨s, hs, _⟩
    · exact hmm
    · simp at hs
  | cons s rest ih =>
    intro m m' h hd
    simp only [run] at h
    split at h
    · exact absurd h (by simp)
    · rename_i m1 heq
      apply ih m1 m' h
      rcases s with _ | v
      · rcases processLatency_minmax_drop m m1 heq with ⟨h1, h2⟩
        rcases hd with hmm | ⟨t, ht, hts⟩
        · left
          rw [h1, h2]
          exact hmm
        · rcases List.mem_cons.mp ht with rfl | htr
          · simp at hts
          · exact Or.inr ⟨t, htr, hts⟩
      · exact Or.inl (processLatency_order_valid m v m1 heq)

/-- Claim C8: across any sequence of samples `minLatency` never increases
and `maxLatency` never decreases, a drop sample changes neither bound, and
once any valid sample has been observed (starting from the initial model)
`minLatency ≤ maxLatency` holds. -/
theorem c8_range_tracker_monotone :
    (∀ m s m', processLatency m s = some m' →
      m'.minLatency ≤ m.minLatency ∧ m.maxLatency ≤ m'.maxLatency) ∧
    (∀ m m', processLatency m none = some m' →
      m'.minLatency = m.minLatency ∧ m'.maxLatency = m.maxLatency) ∧
    (∀ m samples m', run m samples = some m' →
      m'.minLatency ≤ m.minLatency ∧ m.maxLatency ≤ m'.maxLatency) ∧
    (∀ groupSize aggregates samples m',
      run (initialModel groupSize aggregates) samples = some m' →
      (∃ s ∈ samples, s.isSome) → m'.minLatency ≤ m'.maxLatency) :=
  ⟨fun m s m' h => processLatency_bounds_mono m s m' h,
   fun m m' h => processLatency_minmax_drop m m' h,
   fun m samples m' h => run_bounds_mono samples m m' h,
   fun _ _ samples m' h hex => run_bounds_order samples _ m' h (Or.inr hex)⟩

set_option maxRecDepth 20000 in
unseal Rat.add Rat.mul Rat.inv Rat.sub in
/-- Witness for `c8_range_tracker_monotone`: one valid sample from the
initial model establishes `minLatency ≤ maxLatency`. -/
theorem c8_witness :
    (∃ s ∈ ([some 5] : List Sample), s.isSome) ∧
    ∃ m', run (initialModel 32 2) ([some 5] : List Sample) = some m' ∧
      m'.minLatency ≤ m'.maxLatency := by
  have h : run (initialModel 32 2) ([some 5] : List Sample) = some
      { counter := 1, latencyData := [some 5], aggregateCounts := [32, 1024],
        aggregateData := [List.replicate 6 [], List.replicate 11 []],
        windowWidth := 80, minLatency := 5, maxLatency := 5,
        gradientUpdate := true } := by decide
  exact ⟨⟨some 5, by simp, rfl⟩, _, h,
    c8_range_tracker_monotone.2.2.2 32 2 [some 5] _ h ⟨some 5, by simp, rfl⟩⟩

theorem run_window_bound (samples : List Sample) :
    ∀ m m', m.windowWidth = 80 → m.latencyData.length ≤ 80 * 65536 →
      run m samples = some m' →
      m'.windowWidth = 80 ∧ m'.latencyData.length ≤ 80 * 65536 := by
  induction samples with
  | nil =>
    intro m m' hw hl h
    simp only [run] at h
    obtain rfl := Option.some.inj h
    exact ⟨hw, hl⟩
  | cons s rest ih =>
    intro m m' hw hl h
    simp only [run] at h
    split at h
    · exact absurd h (by simp)
    · rename_i m1 heq
      obtain ⟨hld, _, hwid, _⟩ := processLatency_window m s m1 heq
      have hlen1 : m1.latencyData.length ≤ 80 * 65536 := by
        rw [hw] at hld
        rw [hld]
        split_ifs with hc
        · simp only [List.length_drop, List.length_append, List.length_singleton]
          omega
        · simp only [List.length_append, List.length_singleton] at hc ⊢
          omega
      exact ih m1 m' (hwid.trans hw) hlen1 h

/-- Claim C9: appending a sample adds exactly one element at the end of the
window; if the new length exceeds `windowWidth*65536` exactly the single
oldest element is evicted; consequently the window length never exceeds
that bound (in particular along any run from the initial model, whose
width stays 80). -/
theorem c9_window_append_evict :
    (∀ m s m', processLatency m s = some m' →
      m'.latencyData = (if m.windowWidth * 65536 < (m.latencyData ++ [s]).length
          then (m.latencyData ++ [s]).drop 1 else m.latencyData ++ [s]) ∧
      (m.latencyData.length ≤ m.windowWidth * 65536 →
        m'.latencyData.length ≤ m.windowWidth * 65536)) ∧
    (∀ groupSize aggregates samples m',
      run (initialModel groupSize aggregates) samples = some m' →
      m'.latencyData.length ≤ 80 * 65536) := by
  constructor
  · intro m s m' h
    obtain ⟨hld, _, _, _⟩ := processLatency_window m s m' h
    refine ⟨hld, ?_⟩
    intro hb
    rw [hld]
    split_ifs with hc
    · simp only [List.length_drop, List.length_append, List.length_singleton]
      omega
    · simp only [List.length_append, List.length_singleton] at hc ⊢
      omega
  · intro g a samples m' h
    refine (run_window_bound samples _ m' rfl ?_ h).2
    simp [initialModel]

/-- Witness for `c9_window_append_evict`: with window capacity 0 the
append immediately evicts the oldest (here: the just-appended) element. -/
theorem c9_witness :
    ∃ m', processLatency
        { counter := 0, latencyData := [], aggregateCounts := [32, 1024],
          aggregateData := [[], []], windowWidth := 0, minLatency := 100,
          maxLatency := 1, gradientUpdate := false } (some 1) = some m' ∧
      m'.latencyData = [] ∧
      m'.latencyData.length ≤
        ({ counter := 0, latencyData := [], aggregateCounts := [32, 1024],
           aggregateData := [[], []], windowWidth := 0, minLatency := 100,
           maxLatency := 1, gradientUpdate := false } : PingModel).windowWidth * 65536 := by
  have h : processLatency
      { counter := 0, latencyData := [], aggregateCounts := [32, 1024],
        aggregateData := [[], []], windowWidth := 0, minLatency := 100,
        maxLatency := 1, gradientUpdate := false } (some 1) = some
      { counter := 1, latencyData := [], aggregateCounts := [32, 1024],
        aggregateData := [[], []], windowWidth := 0, minLatency := 1,
        maxLatency := 1, gradientUpdate := true } := by decide
  refine ⟨_, h, by decide, ?_⟩
  exact (c9_window_append_evict.1 _ (some 1) _ h).2 (by decide)

/-- Claim C10 (amended): the legend layout computes
`cols = max 1 (availableWidth / widest)`, `rows = ceil(entries / cols)`,
and a column-major placement whose cells stay inside the `cols × rows`
grid; the total width `cols * widest` stays within `availableWidth`
whenever one padded entry fits (`widest ≤ availableWidth`).  When even a
single entry is wider than the terminal, the clamped single column exceeds
`availableWidth` (`c10_counterexample` refutes the unrestricted bound). -/
theorem c10_legend_grid_layout (lengths : List ℕ) (w widest cols rows : ℕ)
    (h : renderLegendLayout lengths w = some (widest, cols, rows)) :
    cols = max 1 (w / widest) ∧
    (widest ≤ w → cols * widest ≤ w) ∧
    rows = (lengths.length + cols - 1) / cols ∧
    (∀ i, i < lengths.length →
      (legendPos rows i).1 < cols ∧ (legendPos rows i).2 < rows) := by
  simp only [renderLegendLayout] at h
  split at h
  · exact absurd h (by simp)
  · rename_i hw0
    have h' := Option.some.inj h
    simp only [Prod.mk.injEq] at h'
    obtain ⟨rfl, rfl, rfl⟩ := h'
    have hA0 : 0 < lengths.foldl max 0 := Nat.pos_of_ne_zero hw0
    have hcols : 0 < max (w / lengths.foldl max 0) 1 :=
      lt_of_lt_of_le Nat.one_pos (le_max_right _ _)
    refine ⟨Nat.max_comm _ _, ?_, rfl, ?_⟩
    · intro hfits
      have hdiv1 : 1 ≤ w / lengths.foldl max 0 :=
        (Nat.one_le_div_iff hA0).mpr hfits
      rw [Nat.max_eq_left hdiv1]
      exact Nat.div_mul_le_self w _
    · intro i hi
      have hN : 1 ≤ lengths.length := by
        rcases lengths with _ | ⟨x, xs⟩
        · exact absurd rfl hw0
        · simp
      have hrw : lengths.length + max (w / lengths.foldl max 0) 1 - 1 =
          (lengths.length - 1) + max (w / lengths.foldl max 0) 1 := by omega
      have hrows : (lengths.length + max (w / lengths.foldl max 0) 1 - 1) /
          max (w / lengths.foldl max 0) 1 =
          (lengths.length - 1) / max (w / lengths.foldl max 0) 1 + 1 := by
        rw [hrw, Nat.add_div_right _ hcols]
      have hrowspos : 0 < (lengths.length + max (w / lengths.foldl max 0) 1 - 1) /
          max (w / lengths.foldl max 0) 1 := by
        rw [hrows]
        exact Nat.succ_pos _
      have hcovers : lengths.length ≤
          max (w / lengths.foldl max 0) 1 *
            ((lengths.length + max (w / lengths.foldl max 0) 1 - 1) /
              max (w / lengths.foldl max 0) 1) := by
        rw [hrows]
        have hdm := Nat.div_add_mod (lengths.length - 1) (max (w / lengths.foldl max 0) 1)
        have hml := Nat.mod_lt (lengths.length - 1) hcols
        set q := (lengths.length - 1) / max (w / lengths.foldl max 0) 1 with hq
        set r := (lengths.length - 1) % max (w / lengths.foldl max 0) 1 with hr
        set c := max (w / lengths.foldl max 0) 1 with hc
        -- hdm : c * q + r = lengths.length - 1, hml : r < c; goal : length ≤ c * (q + 1)
        have hexp : c * (q + 1) = c * q + c := by ring
        omega
      constructor
      · simp only [legendPos]
        rw [Nat.div_lt_iff_lt_mul hrowspos]
        calc i < lengths.length := hi
          _ ≤ _ := hcovers
          _ = _ := by ring
      · exact Nat.mod_lt i hrowspos

/-- Claim C10 is false as stated: with one entry of padded width 4 and
`availableWidth = 3`, the clamp `cols = max(1, 3/4) = 1` makes the rendered
width `1 * 4 = 4` exceed the available width. -/
theorem c10_counterexample :
    renderLegendLayout [4] 3 = some (4, 1, 1) ∧ ¬ (1 * 4 ≤ 3) := by
  refine ⟨?_, ?_⟩ <;> decide

/-- Witness for `c10_legend_grid_layout` on two width-4 entries in an
80-column terminal. -/
theorem c10_witness :
    renderLegendLayout [4, 4] 80 = some (4, 20, 1) ∧
    (20 = max 1 (80 / 4) ∧ (4 ≤ 80 → 20 * 4 ≤ 80) ∧
      1 = (([4, 4] : List ℕ).length + 20 - 1) / 20 ∧
      (∀ i, i < ([4, 4] : List ℕ).length →
        (legendPos 1 i).1 < 20 ∧ (legendPos 1 i).2 < 1)) :=
  ⟨by decide, c10_legend_grid_layout [4, 4] 80 4 20 1 (by decide)⟩

theorem appendEach_spec (rows : List (List Sample)) (vals : List Sample)
    (h : rows.length ≤ vals.length) :
    ∃ rows', appendEach rows vals = some rows' ∧ rows'.length = rows.length ∧
      ∀ L, (∀ r ∈ rows, r.length = L) → ∀ r ∈ rows', r.length = L + 1 := by
  induction rows generalizing vals with
  | nil => exact ⟨[], rfl, rfl, fun L _ r hr => absurd hr (by simp)⟩
  | cons r rs ih =>
    rcases vals with _ | ⟨v, vs⟩
    · simp at h
    · obtain ⟨rows', hr', hlen, hL⟩ := ih vs (by simpa using h)
      refine ⟨(r ++ [v]) :: rows', ?_, by simp [hlen], ?_⟩
      · simp [appendEach, hr']
      · intro L hall t ht
        rcases List.mem_cons.mp ht with rfl | hmem
        · simp [hall r (by simp)]
        · exact hL L (fun u hu => hall u (by simp [hu])) t hmem

theorem stepLevel_spec (c L cnt : ℕ) (win : List Sample)
    (rows : List (List Sample))
    (hcnt3 : 3 ≤ cnt) (hrows : rows.length ≤ intLog2 cnt + 1)
    (hwin : c % cnt = 0 → cnt ≤ win.length) (hwpos : 0 < win.length)
    (hL : ∀ r ∈ rows, r.length = L) :
    ∃ rows', stepLevel c win cnt rows = some rows' ∧
      rows'.length = rows.length ∧
      ∀ r ∈ rows', r.length = (if c % cnt = 0 then L + 1 else L) := by
  by_cases hdiv : c % cnt = 0
  · have hle : cnt ≤ win.length := hwin hdiv
    have hchunk : (win.drop (win.length - cnt)).length = cnt := by
      simp only [List.length_drop]
      omega
    obtain ⟨stats, hagg, hstats⟩ :=
      aggregate_some (win.drop (win.length - cnt)) (by rw [hchunk]; exact hcnt3)
    have hout : (stats ++ [some ((countLost (win.drop (win.length - cnt)) : ℚ))]).length =
        intLog2 cnt + 1 := by
      simp [hstats, hchunk]
    obtain ⟨rows', hr', hlen, hLs⟩ :=
      appendEach_spec rows (stats ++ [some ((countLost (win.drop (win.length - cnt)) : ℚ))])
        (by rw [hout]; exact hrows)
    refine ⟨rows', ?_, hlen, ?_⟩
    · simp only [stepLevel]
      rw [if_neg (by omega : ¬ cnt = 0), if_pos ⟨hdiv, hwpos⟩, if_pos hle, hagg]
      exact hr'
    · intro r hr
      rw [if_pos hdiv]
      exact hLs L hL r hr
  · refine ⟨rows, ?_, rfl, ?_⟩
    · simp only [stepLevel]
      rw [if_neg (by omega : ¬ cnt = 0),
        if_neg (fun hcon => hdiv hcon.1)]
    · intro r hr
      rw [if_neg hdiv]
      exact hL r hr

theorem processLevels_two (c : ℕ) (w : List Sample)
    (r0 r1 rows0 rows1 : List (List Sample))
    (h0 : stepLevel c w 32 r0 = some rows0)
    (h1 : stepLevel c w 1024 r1 = some rows1) :
    processLevels c w [32, 1024] [r0, r1] = some [rows0, rows1] := by
  simp [processLevels, h0, h1]

theorem processLatency_build (m : PingModel) (s : Sample)
    (ad' : List (List (List Sample)))
    (h : processLevels (m.counter + 1)
      (if m.windowWidth * 65536 < (m.latencyData ++ [s]).length
        then (m.latencyData ++ [s]).drop 1 else m.latencyData ++ [s])
      m.aggregateCounts m.aggregateData = some ad') :
    ∃ m', processLatency m s = some m' ∧ m'.aggregateData = ad' ∧
      m'.counter = m.counter + 1 ∧
      m'.latencyData = (if m.windowWidth * 65536 < (m.latencyData ++ [s]).length
        then (m.latencyData ++ [s]).drop 1 else m.latencyData ++ [s]) ∧
      m'.windowWidth = m.windowWidth ∧
      m'.aggregateCounts = m.aggregateCounts := by
  have hex : ∃ m', processLatency m s = some m' ∧ m'.aggregateData = ad' := by
    simp only [processLatency]
    rw [h]
    exact ⟨_, rfl, rfl⟩
  obtain ⟨m', hps, had⟩ := hex
  obtain ⟨hld, hc, hw, hac⟩ := processLatency_window m s m' hps
  exact ⟨m', hps, had, hc, hld, hw, hac⟩

theorem run_aggregation_lockstep (samples : List Sample) :
    ∀ m r0 r1,
      m.aggregateCounts = [32, 1024] → m.windowWidth = 80 →
      m.latencyData.length = min m.counter (80 * 65536) →
      m.aggregateData = [r0, r1] →
      r0.length = 6 → r1.length = 11 →
      (∀ r ∈ r0, r.length = m.counter / 32) →
      (∀ r ∈ r1, r.length = m.counter / 1024) →
      ∃ m' r0' r1', run m samples = some m' ∧
        m'.counter = m.counter + samples.length ∧
        m'.aggregateData = [r0', r1'] ∧
        r0'.length = 6 ∧ r1'.length = 11 ∧
        (∀ r ∈ r0', r.length = m'.counter / 32) ∧
        (∀ r ∈ r1', r.length = m'.counter / 1024) := by
  induction samples with
  | nil =>
    intro m r0 r1 hac hw hlen had h6 h11 hr0 hr1
    exact ⟨m, r0, r1, rfl, by simp, had, h6, h11, hr0, hr1⟩
  | cons s rest ih =>
    intro m r0 r1 hac hw hlen had h6 h11 hr0 hr1
    have hwinlen : (if m.windowWidth * 65536 < (m.latencyData ++ [s]).length
        then (m.latencyData ++ [s]).drop 1 else m.latencyData ++ [s]).length =
        min (m.counter + 1) (80 * 65536) := by
      rw [hw]
      split_ifs with hc
      · simp only [List.length_drop, List.length_append, List.length_singleton] at hc ⊢
        omega
      · simp only [List.length_append, List.length_singleton] at hc ⊢
        omega
    obtain ⟨rows0, hs0, hlen0, hL0⟩ :=
      stepLevel_spec (m.counter + 1) (m.counter / 32) 32
        (if m.windowWidth * 65536 < (m.latencyData ++ [s]).length
          then (m.latencyData ++ [s]).drop 1 else m.latencyData ++ [s]) r0
        (by omega) (by rw [h6]; decide)
        (fun hdiv => by
          rw [hwinlen]
          have h32 : 32 ≤ m.counter + 1 :=
            Nat.le_of_dvd (by omega) (Nat.dvd_of_mod_eq_zero hdiv)
          omega)
        (by rw [hwinlen]; omega)
        hr0
    obtain ⟨rows1, hs1, hlen1, hL1⟩ :=
      stepLevel_spec (m.counter + 1) (m.counter / 1024) 1024
        (if m.windowWidth * 65536 < (m.latencyData ++ [s]).length
          then (m.latencyData ++ [s]).drop 1 else m.latencyData ++ [s]) r1
        (by omega) (by rw [h11]; decide)
        (fun hdiv => by
          rw [hwinlen]
          have h1024 : 1024 ≤ m.counter + 1 :=
            Nat.le_of_dvd (by omega) (Nat.dvd_of_mod_eq_zero hdiv)
          omega)
        (by rw [hwinlen]; omega)
        hr1
    have hpl : processLevels (m.counter + 1)
        (if m.windowWidth * 65536 < (m.latencyData ++ [s]).length
          then (m.latencyData ++ [s]).drop 1 else m.latencyData ++ [s])
        m.aggregateCounts m.aggregateData = some [rows0, rows1] := by
      rw [hac, had]
      exact processLevels_two _ _ _ _ _ _ hs0 hs1
    obtain ⟨m1, hps, had1, hc1, hld1, hw1, hac1⟩ := processLatency_build m s _ hpl
    have hr0m : ∀ r ∈ rows0, r.length = m1.counter / 32 := by
      intro r hr
      have hlr := hL0 r hr
      rw [hc1]
      by_cases hd : (m.counter + 1) % 32 = 0
      · rw [if_pos hd] at hlr
        rw [hlr]
        omega
      · rw [if_neg hd] at hlr
        rw [hlr]
        omega
    have hr1m : ∀ r ∈ rows1, r.length = m1.counter / 1024 := by
      intro r hr
      have hlr := hL1 r hr
      rw [hc1]
      by_cases hd : (m.counter + 1) % 1024 = 0
      · rw [if_pos hd] at hlr
        rw [hlr]
        omega
      · rw [if_neg hd] at hlr
        rw [hlr]
        omega
    obtain ⟨m', r0', r1', hrun, hcnt, hadf, h6f, h11f, hr0f, hr1f⟩ :=
      ih m1 rows0 rows1 (hac1.trans hac) (hw1.trans hw)
        (by rw [hld1, hc1]; exact hwinlen)
        had1 (hlen0.trans h6) (hlen1.trans h11) hr0m hr1m
    refine ⟨m', r0', r1', ?_, ?_, hadf, h6f, h11f, hr0f, hr1f⟩
    · simp only [run, hps]
      exact hrun
    · rw [hcnt, hc1]
      simp only [List.length_cons]
      omega

/-- Claim C4: with `groupSize = 32` and `levels = 2`, after ingesting any
sequence of `k` samples every level-0 row has received exactly `⌊k/32⌋`
appends and every level-1 row exactly `⌊k/1024⌋` appends: each level
appends exactly once per chunk of ingested samples and all rows of a level
grow in lockstep. -/
theorem c4_level_append_cadence (samples : List Sample) :
    ∃ m' r0 r1, run (initialModel 32 2) samples = some m' ∧
      m'.aggregateData = [r0, r1] ∧ r0.length = 6 ∧ r1.length = 11 ∧
      (∀ row ∈ r0, row.length = samples.length / 32) ∧
      (∀ row ∈ r1, row.length = samples.length / 1024) := by
  obtain ⟨m', r0', r1', hrun, hcnt, had, h6, h11, hr0, hr1⟩ :=
    run_aggregation_lockstep samples (initialModel 32 2)
      (List.replicate 6 []) (List.replicate 11 [])
      (by decide) rfl (by simp [initialModel]) (by decide)
      (by simp) (by simp)
      (fun r hr => by rw [List.eq_of_mem_replicate hr]; rfl)
      (fun r hr => by rw [List.eq_of_mem_replicate hr]; rfl)
  have hcnt' : m'.counter = samples.length := by
    rw [hcnt]
    simp [initialModel]
  refine ⟨m', r0', r1', hrun, had, h6, h11, ?_, ?_⟩
  · intro row hrow
    rw [hr0 row hrow, hcnt']
  · intro row hrow
    rw [hr1 row hrow, hcnt']
